import Mathlib

/-!
Verification of the pixel rearrangement core of src/denoising/functions.py:
concatenate_input_noise_map (Fold), UpSampleFeaturesFunction.forward (Unfold)
and UpSampleFeaturesFunction.backward (the hand written adjoint).

Tensors are embedded as a shape (N, C, H, W) together with a total index
function into the integers; every statement quantifies only over in range
indices, so values outside the shape never matter. Fallible PyTorch
operations (view with a mismatched element count, slice assignment whose
right hand side does not broadcast to the destination view, cat on
mismatched shapes) are embedded in Option, with none standing for the
raised RuntimeError. Slice assignment follows the PyTorch setitem rule:
the source is broadcast to the shape of the destination view, a source
dimension being compatible when it equals the destination dimension or
equals 1 (a size 1 source dimension expands to any destination size,
including 0).
-/

namespace Denoising

/-- Rank 4 integer tensor: the shape (N, C, H, W) plus a total index
function. -/
structure Tensor4 where
  N : ℕ
  C : ℕ
  H : ℕ
  W : ℕ
  data : ℕ → ℕ → ℕ → ℕ → ℤ

/-- Rank 1 tensor: the per image noise levels noise_sigma, one scalar per
image of the batch. -/
structure NoiseVec where
  len : ℕ
  data : ℕ → ℤ

/-- The offset table of functions.py: idxL = [[0, 0], [0, 1], [1, 0], [1, 1]],
the four sub pixel positions of a 2x2 block in fixed row major order. -/
def idxL : List (ℕ × ℕ) := [(0, 0), (0, 1), (1, 0), (1, 1)]

/-- The slice assignment
  dsf[:, idx : dsf.C : 4, :, :] = input[:, :, r::2, s::2]
performed by one iteration of the population loops of
concatenate_input_noise_map and of UpSampleFeaturesFunction.backward.
The right hand side slice has spatial sizes ceil((H - r) / 2) and
ceil((W - s) / 2); the destination view has (dsf.C - idx + 3) / 4 channels
and the full dsf spatial extent. The assignment succeeds when every source
dimension equals the destination dimension or equals 1 (PyTorch broadcast);
otherwise PyTorch raises, embedded here as none. A channel c of dsf is
written when it lies in the slice idx : dsf.C : 4, and it receives the
source element at slice position ((c - idx) / 4, i, j), with size 1 source
dimensions read at index 0. -/
def foldAssign (dsf input : Tensor4) (idx r s : ℕ) : Option Tensor4 :=
  if (input.N = dsf.N ∨ input.N = 1) ∧
      (input.C = (dsf.C - idx + 3) / 4 ∨ input.C = 1) ∧
      ((input.H - r + 1) / 2 = dsf.H ∨ (input.H - r + 1) / 2 = 1) ∧
      ((input.W - s + 1) / 2 = dsf.W ∨ (input.W - s + 1) / 2 = 1) then
    some { dsf with
      data := fun n c i j =>
        if idx ≤ c ∧ c < dsf.C ∧ (c - idx) % 4 = 0 then
          input.data (if input.N = 1 then 0 else n)
            (if input.C = 1 then 0 else (c - idx) / 4)
            (r + 2 * (if (input.H - r + 1) / 2 = 1 then 0 else i))
            (s + 2 * (if (input.W - s + 1) / 2 = 1 then 0 else j))
        else dsf.data n c i j }
  else none

/-- The slice assignment
  result[:, :, r::2, s::2] = input[:, idx : input.C : 4, :, :]
performed by one iteration of the population loop of
UpSampleFeaturesFunction.forward. The destination view has spatial sizes
ceil((result.H - r) / 2) and ceil((result.W - s) / 2) and all result.C
channels; the source slice has (input.C - idx + 3) / 4 channels. Broadcast
compatibility and the raised RuntimeError are embedded as in foldAssign.
A spatial position (i, j) of the result is written when i is congruent to
r and j to s modulo 2, and it receives the source element at channel
idx + 4 * c of the input, spatial slice position ((i - r) / 2, (j - s) / 2). -/
def upsampleAssign (result input : Tensor4) (idx r s : ℕ) : Option Tensor4 :=
  if (input.N = result.N ∨ input.N = 1) ∧
      ((input.C - idx + 3) / 4 = result.C ∨ (input.C - idx + 3) / 4 = 1) ∧
      (input.H = (result.H - r + 1) / 2 ∨ input.H = 1) ∧
      (input.W = (result.W - s + 1) / 2 ∨ input.W = 1) then
    some { result with
      data := fun n c i j =>
        if r ≤ i ∧ (i - r) % 2 = 0 ∧ s ≤ j ∧ (j - s) % 2 = 0 then
          input.data (if input.N = 1 then 0 else n)
            (idx + 4 * (if (input.C - idx + 3) / 4 = 1 then 0 else c))
            (if input.H = 1 then 0 else (i - r) / 2)
            (if input.W = 1 then 0 else (j - s) / 2)
        else result.data n c i j }
  else none

/-- The call noise_sigma.view(N, 1, 1, 1).repeat(1, C, Hout, Wout): view raises
unless the element count of noise_sigma equals N; repeat then tiles the
per image scalar over a (C, Hout, Wout) block. -/
def buildNoiseMap (noise_sigma : NoiseVec) (N C Hout Wout : ℕ) : Option Tensor4 :=
  if noise_sigma.len = N then
    some ⟨N, C, Hout, Wout, fun n _ _ _ => noise_sigma.data n⟩
  else none

/-- The call torch.cat((a, b), 1): concatenation along the channel axis, which
requires all remaining dimensions to agree. -/
def catChannels (a b : Tensor4) : Option Tensor4 :=
  if a.N = b.N ∧ a.H = b.H ∧ a.W = b.W then
    some ⟨a.N, a.C + b.C, a.H, a.W, fun n c i j =>
      if c < a.C then a.data n c i j else b.data n (c - a.C) i j⟩
  else none

/-- The population loop of concatenate_input_noise_map (and, with the same
code shape, of UpSampleFeaturesFunction.backward):
  for idx in range(4):
    dsf[:, idx:Cout:sca2, :, :] = input[:, :, idxL[idx][0]::sca, idxL[idx][1]::sca]
unrolled over the four entries of idxL in order. -/
def populateDown (input dsf : Tensor4) : Option Tensor4 :=
  (foldAssign dsf input 0 0 0).bind fun d0 =>
  (foldAssign d0 input 1 0 1).bind fun d1 =>
  (foldAssign d1 input 2 1 0).bind fun d2 =>
  foldAssign d2 input 3 1 1

/-- The population loop of UpSampleFeaturesFunction.forward:
  for idx in range(4):
    result[:, :, idxL[idx][0]::sca, idxL[idx][1]::sca] = input[:, idx:Cin:sca2, :, :]
unrolled over the four entries of idxL in order. -/
def populateUp (input result : Tensor4) : Option Tensor4 :=
  (upsampleAssign result input 0 0 0).bind fun r0 =>
  (upsampleAssign r0 input 1 0 1).bind fun r1 =>
  (upsampleAssign r1 input 2 1 0).bind fun r2 =>
  upsampleAssign r2 input 3 1 1

/-- The function concatenate_input_noise_map(input, noise_sigma) of functions.py, with
sca = 2, sca2 = 4, Cout = 4 * C, Hout = H / 2, Wout = W / 2 (floor): the
zero filled (N, Cout, Hout, Wout) buffer is allocated, the noise map is
built by view and repeat, the population loop runs, and the noise map is
concatenated before the downsampled features along the channel axis. -/
def concatenate_input_noise_map (input : Tensor4) (noise_sigma : NoiseVec) :
    Option Tensor4 :=
  (buildNoiseMap noise_sigma input.N input.C (input.H / 2) (input.W / 2)).bind
    fun noise_map =>
  (populateDown input
      ⟨input.N, 4 * input.C, input.H / 2, input.W / 2, fun _ _ _ _ => 0⟩).bind
    fun downsampledfeatures =>
  catChannels noise_map downsampledfeatures

/-- The forward method of UpSampleFeaturesFunction in functions.py, with sca = 2,
sca2 = 4, Cout = Cin / 4, Hout = Hin * 2, Wout = Win * 2. The assert that
Cin is divisible by 4 raises AssertionError, embedded as none; then the
zero (N, Cout, Hout, Wout) result is populated by the unrolled loop. -/
def upsamplefeatures (input : Tensor4) : Option Tensor4 :=
  if input.C % 4 = 0 then
    populateUp input
      ⟨input.N, input.C / 4, input.H * 2, input.W * 2, fun _ _ _ _ => 0⟩
  else none

/-- The backward method of UpSampleFeaturesFunction in functions.py, with sca = 2,
sca2 = 4, Cg_in = 4 * Cg_out, Hg_in = Hg_out / 2, Wg_in = Wg_out / 2
(floor): the zero (N, Cg_in, Hg_in, Wg_in) gradient buffer is populated by
the same unrolled loop as the deinterleave of concatenate_input_noise_map. -/
def upsample_backward (grad_output : Tensor4) : Option Tensor4 :=
  populateDown grad_output
    ⟨grad_output.N, 4 * grad_output.C, grad_output.H / 2, grad_output.W / 2,
      fun _ _ _ _ => 0⟩

/-- Dropping the first k channels of a tensor, t[:, k:, :, :]. Used to discard
the noise map block of the Fold output before unfolding. -/
def dropChannels (t : Tensor4) (k : ℕ) : Tensor4 :=
  ⟨t.N, t.C - k, t.H, t.W, fun n c i j => t.data n (k + c) i j⟩

/-- Inner product of two tensors over the index box of the first argument. -/
def inner4 (a b : Tensor4) : ℤ :=
  ∑ n ∈ Finset.range a.N, ∑ c ∈ Finset.range a.C,
    ∑ i ∈ Finset.range a.H, ∑ j ∈ Finset.range a.W,
      a.data n c i j * b.data n c i j

/-! Characterization lemmas for the two slice assignments when the source
slice matches the destination view exactly (the only situation arising for
valid, even sized inputs). -/

lemma foldAssign_step (dsf input : Tensor4) (idx r s : ℕ) (hidx : idx < 4)
    (h1 : input.N = dsf.N) (h2 : input.C = (dsf.C - idx + 3) / 4)
    (h3 : (input.H - r + 1) / 2 = dsf.H) (h4 : (input.W - s + 1) / 2 = dsf.W) :
    ∃ d, foldAssign dsf input idx r s = some d ∧
      d.N = dsf.N ∧ d.C = dsf.C ∧ d.H = dsf.H ∧ d.W = dsf.W ∧
      ∀ n c i j, n < dsf.N → c < dsf.C → i < dsf.H → j < dsf.W →
        d.data n c i j =
          if c % 4 = idx then input.data n (c / 4) (r + 2 * i) (s + 2 * j)
          else dsf.data n c i j := by
  have hw : foldAssign dsf input idx r s = some (Tensor4.mk dsf.N dsf.C dsf.H dsf.W
      (fun n c i j =>
        if idx ≤ c ∧ c < dsf.C ∧ (c - idx) % 4 = 0 then
          input.data (if input.N = 1 then 0 else n)
            (if input.C = 1 then 0 else (c - idx) / 4)
            (r + 2 * (if (input.H - r + 1) / 2 = 1 then 0 else i))
            (s + 2 * (if (input.W - s + 1) / 2 = 1 then 0 else j))
        else dsf.data n c i j)) := by
    rw [foldAssign, if_pos ⟨Or.inl h1, Or.inl h2, Or.inl h3, Or.inl h4⟩]
  refine ⟨_, hw, rfl, rfl, rfl, rfl, ?_⟩
  intro n c i j hn hc hi hj
  show (if idx ≤ c ∧ c < dsf.C ∧ (c - idx) % 4 = 0 then
      input.data (if input.N = 1 then 0 else n)
        (if input.C = 1 then 0 else (c - idx) / 4)
        (r + 2 * (if (input.H - r + 1) / 2 = 1 then 0 else i))
        (s + 2 * (if (input.W - s + 1) / 2 = 1 then 0 else j))
    else dsf.data n c i j) = _
  by_cases hcm : c % 4 = idx
  · rw [if_pos (show idx ≤ c ∧ c < dsf.C ∧ (c - idx) % 4 = 0 by omega), if_pos hcm]
    have e1 : (if input.N = 1 then 0 else n) = n := by split <;> omega
    have e2 : (if input.C = 1 then 0 else (c - idx) / 4) = c / 4 := by split <;> omega
    have e3 : (r + 2 * (if (input.H - r + 1) / 2 = 1 then 0 else i)) = r + 2 * i := by
      split <;> omega
    have e4 : (s + 2 * (if (input.W - s + 1) / 2 = 1 then 0 else j)) = s + 2 * j := by
      split <;> omega
    rw [e1, e2, e3, e4]
  · rw [if_neg (show ¬(idx ≤ c ∧ c < dsf.C ∧ (c - idx) % 4 = 0) by omega), if_neg hcm]

lemma upsampleAssign_step (res input : Tensor4) (idx r s : ℕ)
    (hr : r < 2) (hs : s < 2)
    (h1 : input.N = res.N) (h2 : (input.C - idx + 3) / 4 = res.C)
    (h3 : input.H = (res.H - r + 1) / 2) (h4 : input.W = (res.W - s + 1) / 2) :
    ∃ d, upsampleAssign res input idx r s = some d ∧
      d.N = res.N ∧ d.C = res.C ∧ d.H = res.H ∧ d.W = res.W ∧
      ∀ n c i j, n < res.N → c < res.C → i < res.H → j < res.W →
        d.data n c i j =
          if i % 2 = r ∧ j % 2 = s then
            input.data n (idx + 4 * c) (i / 2) (j / 2)
          else res.data n c i j := by
  have hw : upsampleAssign res input idx r s = some (Tensor4.mk res.N res.C res.H res.W
      (fun n c i j =>
        if r ≤ i ∧ (i - r) % 2 = 0 ∧ s ≤ j ∧ (j - s) % 2 = 0 then
          input.data (if input.N = 1 then 0 else n)
            (idx + 4 * (if (input.C - idx + 3) / 4 = 1 then 0 else c))
            (if input.H = 1 then 0 else (i - r) / 2)
            (if input.W = 1 then 0 else (j - s) / 2)
        else res.data n c i j)) := by
    rw [upsampleAssign, if_pos ⟨Or.inl h1, Or.inl h2, Or.inl h3, Or.inl h4⟩]
  refine ⟨_, hw, rfl, rfl, rfl, rfl, ?_⟩
  intro n c i j hn hc hi hj
  show (if r ≤ i ∧ (i - r) % 2 = 0 ∧ s ≤ j ∧ (j - s) % 2 = 0 then
      input.data (if input.N = 1 then 0 else n)
        (idx + 4 * (if (input.C - idx + 3) / 4 = 1 then 0 else c))
        (if input.H = 1 then 0 else (i - r) / 2)
        (if input.W = 1 then 0 else (j - s) / 2)
    else res.data n c i j) = _
  by_cases hcm : i % 2 = r ∧ j % 2 = s
  · rw [if_pos (show r ≤ i ∧ (i - r) % 2 = 0 ∧ s ≤ j ∧ (j - s) % 2 = 0 by omega),
      if_pos hcm]
    have e1 : (if input.N = 1 then 0 else n) = n := by split <;> omega
    have e2 : (idx + 4 * (if (input.C - idx + 3) / 4 = 1 then 0 else c)) = idx + 4 * c := by
      split <;> omega
    have e3 : (if input.H = 1 then 0 else (i - r) / 2) = i / 2 := by split <;> omega
    have e4 : (if input.W = 1 then 0 else (j - s) / 2) = j / 2 := by split <;> omega
    rw [e1, e2, e3, e4]
  · rw [if_neg (show ¬(r ≤ i ∧ (i - r) % 2 = 0 ∧ s ≤ j ∧ (j - s) % 2 = 0) by omega),
      if_neg hcm]

/-- Full description of the downsampling population loop on an even sized
input: it succeeds and fills channel c of the (N, 4C, H/2, W/2) buffer with
input channel c / 4 sub sampled at the row and column parities of offset
c % 4 of idxL. -/
lemma populateDown_spec (input dsf : Tensor4)
    (hN : input.N = dsf.N) (hC : dsf.C = 4 * input.C)
    (hH : dsf.H = input.H / 2) (hW : dsf.W = input.W / 2)
    (hHe : input.H % 2 = 0) (hWe : input.W % 2 = 0) :
    ∃ d, populateDown input dsf = some d ∧
      d.N = dsf.N ∧ d.C = dsf.C ∧ d.H = dsf.H ∧ d.W = dsf.W ∧
      ∀ n c i j, n < dsf.N → c < dsf.C → i < dsf.H → j < dsf.W →
        d.data n c i j =
          input.data n (c / 4) (2 * i + c % 4 / 2) (2 * j + c % 4 % 2) := by
  obtain ⟨d0, s0, h0N, h0C, h0H, h0W, h0p⟩ :=
    foldAssign_step dsf input 0 0 0 (by omega) hN (by omega) (by omega) (by omega)
  obtain ⟨d1, s1, h1N, h1C, h1H, h1W, h1p⟩ :=
    foldAssign_step d0 input 1 0 1 (by omega) (by omega) (by omega) (by omega) (by omega)
  obtain ⟨d2, s2, h2N, h2C, h2H, h2W, h2p⟩ :=
    foldAssign_step d1 input 2 1 0 (by omega) (by omega) (by omega) (by omega) (by omega)
  obtain ⟨d3, s3, h3N, h3C, h3H, h3W, h3p⟩ :=
    foldAssign_step d2 input 3 1 1 (by omega) (by omega) (by omega) (by omega) (by omega)
  refine ⟨d3, ?_, by omega, by omega, by omega, by omega, ?_⟩
  · rw [populateDown, s0, Option.some_bind, s1, Option.some_bind, s2,
      Option.some_bind, s3]
  intro n c i j hn hc hi hj
  rw [h3p n c i j (by omega) (by omega) (by omega) (by omega),
    h2p n c i j (by omega) (by omega) (by omega) (by omega),
    h1p n c i j (by omega) (by omega) (by omega) (by omega),
    h0p n c i j (by omega) (by omega) (by omega) (by omega)]
  rcases (show c % 4 = 0 ∨ c % 4 = 1 ∨ c % 4 = 2 ∨ c % 4 = 3 by omega)
    with h | h | h | h
  · rw [if_neg (by omega), if_neg (by omega), if_neg (by omega), if_pos h,
      show 0 + 2 * i = 2 * i + c % 4 / 2 by omega,
      show 0 + 2 * j = 2 * j + c % 4 % 2 by omega]
  · rw [if_neg (by omega), if_neg (by omega), if_pos h,
      show 0 + 2 * i = 2 * i + c % 4 / 2 by omega,
      show 1 + 2 * j = 2 * j + c % 4 % 2 by omega]
  · rw [if_neg (by omega), if_pos h,
      show 1 + 2 * i = 2 * i + c % 4 / 2 by omega,
      show 0 + 2 * j = 2 * j + c % 4 % 2 by omega]
  · rw [if_pos h,
      show 1 + 2 * i = 2 * i + c % 4 / 2 by omega,
      show 1 + 2 * j = 2 * j + c % 4 % 2 by omega]

/-- Full description of the upsampling population loop of
UpSampleFeaturesFunction.forward on a result buffer of shape
(N, Cin / 4, Hin * 2, Win * 2): it succeeds and fills output position
(c, i, j) from input channel 2 * (i % 2) + j % 2 + 4 * c at spatial
position (i / 2, j / 2). -/
lemma populateUp_spec (input res : Tensor4)
    (hN : input.N = res.N) (hC : input.C = 4 * res.C)
    (hH : res.H = input.H * 2) (hW : res.W = input.W * 2) :
    ∃ d, populateUp input res = some d ∧
      d.N = res.N ∧ d.C = res.C ∧ d.H = res.H ∧ d.W = res.W ∧
      ∀ n c i j, n < res.N → c < res.C → i < res.H → j < res.W →
        d.data n c i j =
          input.data n (2 * (i % 2) + j % 2 + 4 * c) (i / 2) (j / 2) := by
  obtain ⟨r0, s0, h0N, h0C, h0H, h0W, h0p⟩ :=
    upsampleAssign_step res input 0 0 0 (by omega) (by omega) hN (by omega) (by omega) (by omega)
  obtain ⟨r1, s1, h1N, h1C, h1H, h1W, h1p⟩ :=
    upsampleAssign_step r0 input 1 0 1 (by omega) (by omega) (by omega) (by omega) (by omega) (by omega)
  obtain ⟨r2, s2, h2N, h2C, h2H, h2W, h2p⟩ :=
    upsampleAssign_step r1 input 2 1 0 (by omega) (by omega) (by omega) (by omega) (by omega) (by omega)
  obtain ⟨r3, s3, h3N, h3C, h3H, h3W, h3p⟩ :=
    upsampleAssign_step r2 input 3 1 1 (by omega) (by omega) (by omega) (by omega) (by omega) (by omega)
  refine ⟨r3, ?_, by omega, by omega, by omega, by omega, ?_⟩
  · rw [populateUp, s0, Option.some_bind, s1, Option.some_bind, s2,
      Option.some_bind, s3]
  intro n c i j hn hc hi hj
  rw [h3p n c i j (by omega) (by omega) (by omega) (by omega),
    h2p n c i j (by omega) (by omega) (by omega) (by omega),
    h1p n c i j (by omega) (by omega) (by omega) (by omega),
    h0p n c i j (by omega) (by omega) (by omega) (by omega)]
  rcases (show i % 2 = 0 ∨ i % 2 = 1 by omega) with hi2 | hi2 <;>
    rcases (show j % 2 = 0 ∨ j % 2 = 1 by omega) with hj2 | hj2
  · rw [if_neg (by omega), if_neg (by omega), if_neg (by omega),
      if_pos ⟨hi2, hj2⟩, show 0 + 4 * c = 2 * (i % 2) + j % 2 + 4 * c by omega]
  · rw [if_neg (by omega), if_neg (by omega), if_pos ⟨hi2, hj2⟩,
      show 1 + 4 * c = 2 * (i % 2) + j % 2 + 4 * c by omega]
  · rw [if_neg (by omega), if_pos ⟨hi2, hj2⟩,
      show 2 + 4 * c = 2 * (i % 2) + j % 2 + 4 * c by omega]
  · rw [if_pos ⟨hi2, hj2⟩,
      show 3 + 4 * c = 2 * (i % 2) + j % 2 + 4 * c by omega]

/-- Full description of concatenate_input_noise_map on a valid input: even
H and W, matching noise vector length. The output has shape
(N, C + 4C, H/2, W/2); its first C channels hold the per image noise level
and channel C + q holds input channel q / 4 sub sampled at the parities of
offset q % 4. -/
lemma fold_spec (input : Tensor4) (ns : NoiseVec)
    (hHe : input.H % 2 = 0) (hWe : input.W % 2 = 0) (hlen : ns.len = input.N) :
    ∃ out, concatenate_input_noise_map input ns = some out ∧
      out.N = input.N ∧ out.C = input.C + 4 * input.C ∧
      out.H = input.H / 2 ∧ out.W = input.W / 2 ∧
      (∀ n c i j, c < input.C → out.data n c i j = ns.data n) ∧
      (∀ n c i j, n < input.N → input.C ≤ c → c < input.C + 4 * input.C →
        i < input.H / 2 → j < input.W / 2 →
        out.data n c i j =
          input.data n ((c - input.C) / 4)
            (2 * i + (c - input.C) % 4 / 2) (2 * j + (c - input.C) % 4 % 2)) := by
  obtain ⟨d, hd, hdN, hdC, hdH, hdW, hdp⟩ :=
    populateDown_spec input
      ⟨input.N, 4 * input.C, input.H / 2, input.W / 2, fun _ _ _ _ => 0⟩
      rfl rfl rfl rfl hHe hWe
  have hdN2 : d.N = input.N := hdN
  have hdC2 : d.C = 4 * input.C := hdC
  have hdH2 : d.H = input.H / 2 := hdH
  have hdW2 : d.W = input.W / 2 := hdW
  have hdp2 : ∀ n c i j, n < input.N → c < 4 * input.C →
      i < input.H / 2 → j < input.W / 2 →
      d.data n c i j =
        input.data n (c / 4) (2 * i + c % 4 / 2) (2 * j + c % 4 % 2) := hdp
  have hnm : buildNoiseMap ns input.N input.C (input.H / 2) (input.W / 2) =
      some ⟨input.N, input.C, input.H / 2, input.W / 2, fun n _ _ _ => ns.data n⟩ := by
    rw [buildNoiseMap, if_pos hlen]
  have hcat : catChannels
      ⟨input.N, input.C, input.H / 2, input.W / 2, fun n _ _ _ => ns.data n⟩ d =
      some ⟨input.N, input.C + d.C, input.H / 2, input.W / 2, fun n c i j =>
        if c < input.C then ns.data n else d.data n (c - input.C) i j⟩ := by
    rw [catChannels, if_pos ⟨hdN2.symm, hdH2.symm, hdW2.symm⟩]
  refine ⟨Tensor4.mk input.N (input.C + d.C) (input.H / 2) (input.W / 2)
      (fun n c i j => if c < input.C then ns.data n else d.data n (c - input.C) i j),
    ?_, rfl, (show input.C + d.C = input.C + 4 * input.C by omega), rfl, rfl, ?_, ?_⟩
  · rw [concatenate_input_noise_map, hnm, Option.some_bind, hd,
      Option.some_bind, hcat]
  · intro n c i j hc
    exact if_pos hc
  · intro n c i j hn hc1 hc2 hi hj
    show (if c < input.C then ns.data n else d.data n (c - input.C) i j) = _
    rw [if_neg (by omega),
      hdp2 n (c - input.C) i j (by omega) (by omega) (by omega) (by omega)]

/-- Full description of UpSampleFeaturesFunction.forward on a valid input
(channel count divisible by 4): the output has shape
(N, Cin/4, Hin*2, Win*2) and position (c, i, j) receives input channel
2 * (i % 2) + j % 2 + 4 * c at spatial position (i / 2, j / 2). -/
lemma upsamplefeatures_spec (input : Tensor4) (h4 : input.C % 4 = 0) :
    ∃ d, upsamplefeatures input = some d ∧
      d.N = input.N ∧ d.C = input.C / 4 ∧ d.H = input.H * 2 ∧ d.W = input.W * 2 ∧
      ∀ n c i j, n < input.N → c < input.C / 4 → i < input.H * 2 → j < input.W * 2 →
        d.data n c i j =
          input.data n (2 * (i % 2) + j % 2 + 4 * c) (i / 2) (j / 2) := by
  obtain ⟨d, hd, hdN, hdC, hdH, hdW, hdp⟩ :=
    populateUp_spec input
      ⟨input.N, input.C / 4, input.H * 2, input.W * 2, fun _ _ _ _ => 0⟩
      rfl (show input.C = 4 * (input.C / 4) by omega) rfl rfl
  refine ⟨d, ?_, hdN, hdC, hdH, hdW, hdp⟩
  rw [upsamplefeatures, if_pos h4]
  exact hd

/-- Full description of UpSampleFeaturesFunction.backward on a gradient of
even spatial size: the output has shape (N, 4*Cg, Hg/2, Wg/2) and gradient
channel c is filled from upstream channel c / 4 sub sampled at the parities
of offset c % 4 of idxL. -/
lemma upsample_backward_spec (g : Tensor4)
    (hHe : g.H % 2 = 0) (hWe : g.W % 2 = 0) :
    ∃ d, upsample_backward g = some d ∧
      d.N = g.N ∧ d.C = 4 * g.C ∧ d.H = g.H / 2 ∧ d.W = g.W / 2 ∧
      ∀ n c i j, n < g.N → c < 4 * g.C → i < g.H / 2 → j < g.W / 2 →
        d.data n c i j =
          g.data n (c / 4) (2 * i + c % 4 / 2) (2 * j + c % 4 % 2) := by
  obtain ⟨d, hd, hdN, hdC, hdH, hdW, hdp⟩ :=
    populateDown_spec g
      ⟨g.N, 4 * g.C, g.H / 2, g.W / 2, fun _ _ _ _ => 0⟩
      rfl rfl rfl rfl hHe hWe
  exact ⟨d, hd, hdN, hdC, hdH, hdW, hdp⟩

/-! Concrete sample tensors used by the witness theorems. -/

/-- A (1, 1, 2, 2) image batch holding the values 1, 2, 3, 4 of the spec
example in row major order. -/
def img1 : Tensor4 := ⟨1, 1, 2, 2, fun _ _ i j => (2 * i + j + 1 : ℤ)⟩

/-- A length 1 noise vector with value 7. -/
def nv1 : NoiseVec := ⟨1, fun _ => 7⟩

/-- A (1, 4, 1, 1) tensor with channel index as value: a valid Unfold input. -/
def ten4 : Tensor4 := ⟨1, 4, 1, 1, fun _ c _ _ => (c : ℤ)⟩

/-- A (1, 3, 1, 1) tensor: channel count not divisible by 4. -/
def ten3 : Tensor4 := ⟨1, 3, 1, 1, fun _ _ _ _ => 0⟩

/-- A (1, 1, 2, 2) gradient tensor shaped like the Unfold output for ten4. -/
def grad1 : Tensor4 := ⟨1, 1, 2, 2, fun _ _ i j => (i + 2 * j + 5 : ℤ)⟩

/-- A length 2 noise vector, mismatching a batch of size 1. -/
def nv2 : NoiseVec := ⟨2, fun _ => 3⟩

/-- A (1, 1, 3, 2) image batch: odd H of at least 3. -/
def img32 : Tensor4 := ⟨1, 1, 3, 2, fun _ _ i j => (i + j : ℤ)⟩

/-- A (1, 1, 1, 2) image batch: odd H equal to 1. -/
def img12 : Tensor4 := ⟨1, 1, 1, 2, fun _ _ _ j => (j : ℤ)⟩

/-- C2: for every even sized batch and matching noise vector, the Fold
output channel at position k + 4 * c of the non noise block (absolute
channel C + k + 4 * c) is input channel c sub sampled at the rows congruent
to the first and columns congruent to the second component of idxL entry k
modulo 2, preserving the relative H/2 x W/2 ordering: the value at (i, j)
is the input value at (2 * i + row offset, 2 * j + column offset). -/
theorem fold_stride4_deinterleave (input : Tensor4) (ns : NoiseVec)
    (hHe : input.H % 2 = 0) (hWe : input.W % 2 = 0) (hlen : ns.len = input.N)
    (k c : ℕ) (hk : k < 4) (hc : c < input.C) :
    ∃ out, concatenate_input_noise_map input ns = some out ∧
      ∀ n i j, n < input.N → i < input.H / 2 → j < input.W / 2 →
        out.data n (input.C + (k + 4 * c)) i j =
          input.data n c (2 * i + (idxL.getD k (0, 0)).1)
            (2 * j + (idxL.getD k (0, 0)).2) := by
  obtain ⟨out, ho, -, -, -, -, -, hdp⟩ := fold_spec input ns hHe hWe hlen
  refine ⟨out, ho, ?_⟩
  intro n i j hn hi hj
  rw [hdp n (input.C + (k + 4 * c)) i j hn (by omega) (by omega) hi hj]
  rcases (show k = 0 ∨ k = 1 ∨ k = 2 ∨ k = 3 by omega) with h | h | h | h <;> subst h
  · rw [show ((idxL.getD 0 (0, 0)).1 : ℕ) = 0 from rfl,
      show ((idxL.getD 0 (0, 0)).2 : ℕ) = 0 from rfl,
      show (input.C + (0 + 4 * c) - input.C) / 4 = c by omega,
      show 2 * i + (input.C + (0 + 4 * c) - input.C) % 4 / 2 = 2 * i + 0 by omega,
      show 2 * j + (input.C + (0 + 4 * c) - input.C) % 4 % 2 = 2 * j + 0 by omega]
  · rw [show ((idxL.getD 1 (0, 0)).1 : ℕ) = 0 from rfl,
      show ((idxL.getD 1 (0, 0)).2 : ℕ) = 1 from rfl,
      show (input.C + (1 + 4 * c) - input.C) / 4 = c by omega,
      show 2 * i + (input.C + (1 + 4 * c) - input.C) % 4 / 2 = 2 * i + 0 by omega,
      show 2 * j + (input.C + (1 + 4 * c) - input.C) % 4 % 2 = 2 * j + 1 by omega]
  · rw [show ((idxL.getD 2 (0, 0)).1 : ℕ) = 1 from rfl,
      show ((idxL.getD 2 (0, 0)).2 : ℕ) = 0 from rfl,
      show (input.C + (2 + 4 * c) - input.C) / 4 = c by omega,
      show 2 * i + (input.C + (2 + 4 * c) - input.C) % 4 / 2 = 2 * i + 1 by omega,
      show 2 * j + (input.C + (2 + 4 * c) - input.C) % 4 % 2 = 2 * j + 0 by omega]
  · rw [show ((idxL.getD 3 (0, 0)).1 : ℕ) = 1 from rfl,
      show ((idxL.getD 3 (0, 0)).2 : ℕ) = 1 from rfl,
      show (input.C + (3 + 4 * c) - input.C) / 4 = c by omega,
      show 2 * i + (input.C + (3 + 4 * c) - input.C) % 4 / 2 = 2 * i + 1 by omega,
      show 2 * j + (input.C + (3 + 4 * c) - input.C) % 4 % 2 = 2 * j + 1 by omega]

/-- C2 witness: the deinterleave law applied at the concrete (1, 1, 2, 2)
example, offset k = 2, channel c = 0. -/
theorem fold_stride4_deinterleave_witness :
    img1.H % 2 = 0 ∧ img1.W % 2 = 0 ∧ nv1.len = img1.N ∧ 2 < 4 ∧ 0 < img1.C ∧
    (∃ out, concatenate_input_noise_map img1 nv1 = some out ∧
      ∀ n i j, n < img1.N → i < img1.H / 2 → j < img1.W / 2 →
        out.data n (img1.C + (2 + 4 * 0)) i j =
          img1.data n 0 (2 * i + (idxL.getD 2 (0, 0)).1)
            (2 * j + (idxL.getD 2 (0, 0)).2)) :=
  ⟨by decide, by decide, by decide, by decide, by decide,
    fold_stride4_deinterleave img1 nv1 (by decide) (by decide) (by decide)
      2 0 (by decide) (by decide)⟩

/-- C4: shape law. Fold on an even sized (N, C, H, W) batch with a matching
noise vector yields shape (N, 5C, H/2, W/2); Unfold on (N, Cin, Hin, Win)
with Cin divisible by 4 yields (N, Cin/4, 2 Hin, 2 Win). -/
theorem shape_law (input x : Tensor4) (ns : NoiseVec)
    (hHe : input.H % 2 = 0) (hWe : input.W % 2 = 0) (hlen : ns.len = input.N)
    (hx4 : x.C % 4 = 0) :
    (∃ out, concatenate_input_noise_map input ns = some out ∧
      out.N = input.N ∧ out.C = 5 * input.C ∧
      out.H = input.H / 2 ∧ out.W = input.W / 2) ∧
    (∃ z, upsamplefeatures x = some z ∧
      z.N = x.N ∧ z.C = x.C / 4 ∧ z.H = 2 * x.H ∧ z.W = 2 * x.W) := by
  obtain ⟨out, ho, h1, h2, h3, h4, -, -⟩ := fold_spec input ns hHe hWe hlen
  obtain ⟨z, hz, g1, g2, g3, g4, -⟩ := upsamplefeatures_spec x hx4
  exact ⟨⟨out, ho, h1, by omega, h3, h4⟩, ⟨z, hz, g1, g2, by omega, by omega⟩⟩

/-- C4 witness: the shape law applied at the concrete sample inputs. -/
theorem shape_law_witness :
    img1.H % 2 = 0 ∧ img1.W % 2 = 0 ∧ nv1.len = img1.N ∧ ten4.C % 4 = 0 ∧
    ((∃ out, concatenate_input_noise_map img1 nv1 = some out ∧
      out.N = img1.N ∧ out.C = 5 * img1.C ∧
      out.H = img1.H / 2 ∧ out.W = img1.W / 2) ∧
    (∃ z, upsamplefeatures ten4 = some z ∧
      z.N = ten4.N ∧ z.C = ten4.C / 4 ∧ z.H = 2 * ten4.H ∧ z.W = 2 * ten4.W)) :=
  ⟨by decide, by decide, by decide, by decide,
    shape_law img1 ten4 nv1 (by decide) (by decide) (by decide) (by decide)⟩

/-- C6: Unfold rejects any input whose channel count is not divisible by 4
(the assert in UpSampleFeaturesFunction.forward raises), returning no
tensor. -/
theorem unfold_bad_channels_fails (input : Tensor4) (h : ¬input.C % 4 = 0) :
    upsamplefeatures input = none := by
  rw [upsamplefeatures, if_neg h]

/-- C6 witness: the rejection applied at the 3 channel sample. -/
theorem unfold_bad_channels_fails_witness :
    ¬ten3.C % 4 = 0 ∧ upsamplefeatures ten3 = none :=
  ⟨by decide, unfold_bad_channels_fails ten3 (by decide)⟩

/-- C7: every element of the first C output channels of Fold equals the
scalar noise level of the corresponding image, identically across the C
channels and all spatial positions. -/
theorem fold_noise_broadcast (input : Tensor4) (ns : NoiseVec)
    (hHe : input.H % 2 = 0) (hWe : input.W % 2 = 0) (hlen : ns.len = input.N) :
    ∃ out, concatenate_input_noise_map input ns = some out ∧
      ∀ n c i j, n < input.N → c < input.C → i < out.H → j < out.W →
        out.data n c i j = ns.data n := by
  obtain ⟨out, ho, -, -, -, -, hns, -⟩ := fold_spec input ns hHe hWe hlen
  exact ⟨out, ho, fun n c i j _ hc _ _ => hns n c i j hc⟩

/-- C7 witness: the noise broadcast applied at the concrete sample. -/
theorem fold_noise_broadcast_witness :
    img1.H % 2 = 0 ∧ img1.W % 2 = 0 ∧ nv1.len = img1.N ∧
    (∃ out, concatenate_input_noise_map img1 nv1 = some out ∧
      ∀ n c i j, n < img1.N → c < img1.C → i < out.H → j < out.W →
        out.data n c i j = nv1.data n) :=
  ⟨by decide, by decide, by decide,
    fold_noise_broadcast img1 nv1 (by decide) (by decide) (by decide)⟩

/-- C8: Fold fails (the view call of the noise map raises) whenever the
noise vector length differs from the batch size, regardless of the other
dimensions. -/
theorem fold_noise_len_mismatch_fails (input : Tensor4) (ns : NoiseVec)
    (h : ¬ns.len = input.N) :
    concatenate_input_noise_map input ns = none := by
  rw [concatenate_input_noise_map, buildNoiseMap, if_neg h]
  rfl

/-- C8 witness: the rejection applied at a batch of 1 with a length 2
noise vector. -/
theorem fold_noise_len_mismatch_fails_witness :
    ¬nv2.len = img1.N ∧ concatenate_input_noise_map img1 nv2 = none :=
  ⟨by decide, fold_noise_len_mismatch_fails img1 nv2 (by decide)⟩

/-- C1: round trip. Folding an even sized batch with any matching noise
vector, discarding the first C (noise map) channels and unfolding the
remaining 4C channels reproduces the original batch exactly, element for
element. -/
theorem fold_unfold_roundtrip (input : Tensor4) (ns : NoiseVec)
    (hHe : input.H % 2 = 0) (hWe : input.W % 2 = 0) (hlen : ns.len = input.N) :
    ∃ out z, concatenate_input_noise_map input ns = some out ∧
      upsamplefeatures (dropChannels out input.C) = some z ∧
      z.N = input.N ∧ z.C = input.C ∧ z.H = input.H ∧ z.W = input.W ∧
      ∀ n c i j, n < input.N → c < input.C → i < input.H → j < input.W →
        z.data n c i j = input.data n c i j := by
  obtain ⟨out, ho, hoN, hoC, hoH, hoW, -, hdp⟩ := fold_spec input ns hHe hWe hlen
  have h4 : (dropChannels out input.C).C % 4 = 0 := by
    show (out.C - input.C) % 4 = 0
    omega
  obtain ⟨z, hz, hzN, hzC, hzH, hzW, hzp⟩ :=
    upsamplefeatures_spec (dropChannels out input.C) h4
  have hzN2 : z.N = out.N := hzN
  have hzC2 : z.C = (out.C - input.C) / 4 := hzC
  have hzH2 : z.H = out.H * 2 := hzH
  have hzW2 : z.W = out.W * 2 := hzW
  have hzp2 : ∀ n c i j, n < out.N → c < (out.C - input.C) / 4 →
      i < out.H * 2 → j < out.W * 2 →
      z.data n c i j =
        out.data n (input.C + (2 * (i % 2) + j % 2 + 4 * c)) (i / 2) (j / 2) := hzp
  refine ⟨out, z, ho, hz, by omega, by omega, by omega, by omega, ?_⟩
  intro n c i j hn hc hi hj
  rw [hzp2 n c i j (by omega) (by omega) (by omega) (by omega),
    hdp n (input.C + (2 * (i % 2) + j % 2 + 4 * c)) (i / 2) (j / 2)
      hn (by omega) (by omega) (by omega) (by omega),
    show (input.C + (2 * (i % 2) + j % 2 + 4 * c) - input.C) / 4 = c by omega,
    show 2 * (i / 2) + (input.C + (2 * (i % 2) + j % 2 + 4 * c) - input.C) % 4 / 2
      = i by omega,
    show 2 * (j / 2) + (input.C + (2 * (i % 2) + j % 2 + 4 * c) - input.C) % 4 % 2
      = j by omega]

/-- C1 witness: the round trip applied at the concrete (1, 1, 2, 2)
example with noise level 7. -/
theorem fold_unfold_roundtrip_witness :
    img1.H % 2 = 0 ∧ img1.W % 2 = 0 ∧ nv1.len = img1.N ∧
    (∃ out z, concatenate_input_noise_map img1 nv1 = some out ∧
      upsamplefeatures (dropChannels out img1.C) = some z ∧
      z.N = img1.N ∧ z.C = img1.C ∧ z.H = img1.H ∧ z.W = img1.W ∧
      ∀ n c i j, n < img1.N → c < img1.C → i < img1.H → j < img1.W →
        z.data n c i j = img1.data n c i j) :=
  ⟨by decide, by decide, by decide,
    fold_unfold_roundtrip img1 nv1 (by decide) (by decide) (by decide)⟩

/-- C10: the explicitly authored backward applied to the forward output
reproduces the forward input exactly: backward is the inverse permutation
of the forward rearrangement. -/
theorem backward_inverts_forward (x : Tensor4) (hx4 : x.C % 4 = 0) :
    ∃ u b, upsamplefeatures x = some u ∧ upsample_backward u = some b ∧
      b.N = x.N ∧ b.C = x.C ∧ b.H = x.H ∧ b.W = x.W ∧
      ∀ n c i j, n < x.N → c < x.C → i < x.H → j < x.W →
        b.data n c i j = x.data n c i j := by
  obtain ⟨u, hu, huN, huC, huH, huW, hup⟩ := upsamplefeatures_spec x hx4
  obtain ⟨b, hb, hbN, hbC, hbH, hbW, hbp⟩ :=
    upsample_backward_spec u (by omega) (by omega)
  refine ⟨u, b, hu, hb, by omega, by omega, by omega, by omega, ?_⟩
  intro n c i j hn hc hi hj
  rw [hbp n c i j (by omega) (by omega) (by omega) (by omega),
    hup n (c / 4) (2 * i + c % 4 / 2) (2 * j + c % 4 % 2)
      (by omega) (by omega) (by omega) (by omega),
    show 2 * ((2 * i + c % 4 / 2) % 2) + (2 * j + c % 4 % 2) % 2 + 4 * (c / 4)
      = c by omega,
    show (2 * i + c % 4 / 2) / 2 = i by omega,
    show (2 * j + c % 4 % 2) / 2 = j by omega]

/-- C10 witness: the inverse law applied at the concrete (1, 4, 1, 1)
sample. -/
theorem backward_inverts_forward_witness :
    ten4.C % 4 = 0 ∧
    (∃ u b, upsamplefeatures ten4 = some u ∧ upsample_backward u = some b ∧
      b.N = ten4.N ∧ b.C = ten4.C ∧ b.H = ten4.H ∧ b.W = ten4.W ∧
      ∀ n c i j, n < ten4.N → c < ten4.C → i < ten4.H → j < ten4.W →
        b.data n c i j = ten4.data n c i j) :=
  ⟨by decide, backward_inverts_forward ten4 (by decide)⟩

/-- On an input whose H or W is odd and at least 3, already the first slice
assignment of the population loop has a source plane of ceil(H/2) rows
(respectively ceil(W/2) columns), which neither equals the floor(H/2)
destination extent nor equals 1, so PyTorch raises. -/
lemma foldAssign_odd_none (dsf input : Tensor4)
    (hH : dsf.H = input.H / 2) (hW : dsf.W = input.W / 2)
    (hodd : (input.H % 2 = 1 ∧ 3 ≤ input.H) ∨ (input.W % 2 = 1 ∧ 3 ≤ input.W)) :
    foldAssign dsf input 0 0 0 = none := by
  rw [foldAssign, if_neg]
  rintro ⟨-, -, h3, h4⟩
  rcases hodd with h | h
  · rcases h3 with h3 | h3 <;> omega
  · rcases h4 with h4 | h4 <;> omega

/-- C5 counterexample: the claim says Fold must fail on every batch with
odd H or W, but on a (1, 1, 1, 2) batch (odd H = 1) the slice assignments
broadcast their single source row into the empty 1 / 2 = 0 row
destination view, so concatenate_input_noise_map returns a (spatially
empty) tensor instead of failing. -/
theorem fold_odd_dim_one_returns :
    img12.H % 2 = 1 ∧ (concatenate_input_noise_map img12 nv1).isSome = true := by
  decide

/-- C5 amended: for every input batch whose H or W is odd and at least 3,
Fold fails, rejecting the input rather than truncating (the odd dimension
equal to 1 case instead yields a spatially empty tensor). -/
theorem fold_odd_dim_ge3_fails (input : Tensor4) (ns : NoiseVec)
    (hodd : (input.H % 2 = 1 ∧ 3 ≤ input.H) ∨ (input.W % 2 = 1 ∧ 3 ≤ input.W)) :
    concatenate_input_noise_map input ns = none := by
  have hpd : populateDown input
      ⟨input.N, 4 * input.C, input.H / 2, input.W / 2, fun _ _ _ _ => 0⟩ = none := by
    rw [populateDown, foldAssign_odd_none _ input rfl rfl hodd]
    rfl
  rw [concatenate_input_noise_map]
  by_cases hlen : ns.len = input.N
  · rw [buildNoiseMap, if_pos hlen, Option.some_bind, hpd]
    rfl
  · rw [buildNoiseMap, if_neg hlen]
    rfl

/-- C5 witness: the amended failure law applied at a (1, 1, 3, 2) batch. -/
theorem fold_odd_dim_ge3_fails_witness :
    ((img32.H % 2 = 1 ∧ 3 ≤ img32.H) ∨ (img32.W % 2 = 1 ∧ 3 ≤ img32.W)) ∧
    concatenate_input_noise_map img32 nv1 = none :=
  ⟨by decide, fold_odd_dim_ge3_fails img32 nv1 (by decide)⟩

/-- C9: two run noninterference across the batch axis. For pairs of valid
inputs that agree on image m (and, for Fold, on its noise level), the
outputs of Fold, Unfold forward and Unfold backward agree on every output
element of image m: image m of the output depends only on image m of the
input. -/
theorem batch_noninterference (x x2 : Tensor4) (ns ns2 : NoiseVec)
    (y y2 g g2 : Tensor4) (m : ℕ)
    (hxN : x2.N = x.N) (hxC : x2.C = x.C) (hxH : x2.H = x.H) (hxW : x2.W = x.W)
    (hxHe : x.H % 2 = 0) (hxWe : x.W % 2 = 0)
    (hlen : ns.len = x.N) (hlen2 : ns2.len = x.N)
    (hmx : m < x.N) (hax : ∀ c i j, x.data m c i j = x2.data m c i j)
    (hans : ns.data m = ns2.data m)
    (hyN : y2.N = y.N) (hyC : y2.C = y.C) (hyH : y2.H = y.H) (hyW : y2.W = y.W)
    (hy4 : y.C % 4 = 0) (hmy : m < y.N)
    (hay : ∀ c i j, y.data m c i j = y2.data m c i j)
    (hgN : g2.N = g.N) (hgC : g2.C = g.C) (hgH : g2.H = g.H) (hgW : g2.W = g.W)
    (hgHe : g.H % 2 = 0) (hgWe : g.W % 2 = 0) (hmg : m < g.N)
    (hag : ∀ c i j, g.data m c i j = g2.data m c i j) :
    (∃ o o2, concatenate_input_noise_map x ns = some o ∧
      concatenate_input_noise_map x2 ns2 = some o2 ∧
      ∀ c i j, c < 5 * x.C → i < x.H / 2 → j < x.W / 2 →
        o.data m c i j = o2.data m c i j) ∧
    (∃ u u2, upsamplefeatures y = some u ∧ upsamplefeatures y2 = some u2 ∧
      ∀ c i j, c < y.C / 4 → i < y.H * 2 → j < y.W * 2 →
        u.data m c i j = u2.data m c i j) ∧
    (∃ b b2, upsample_backward g = some b ∧ upsample_backward g2 = some b2 ∧
      ∀ c i j, c < 4 * g.C → i < g.H / 2 → j < g.W / 2 →
        b.data m c i j = b2.data m c i j) := by
  obtain ⟨o, ho, -, -, -, -, hon, hod⟩ := fold_spec x ns hxHe hxWe hlen
  obtain ⟨o2, ho2, -, -, -, -, hon2, hod2⟩ :=
    fold_spec x2 ns2 (by omega) (by omega) (by omega)
  obtain ⟨u, hu, -, -, -, -, hup⟩ := upsamplefeatures_spec y hy4
  obtain ⟨u2, hu2, -, -, -, -, hup2⟩ := upsamplefeatures_spec y2 (by omega)
  obtain ⟨b, hb, -, -, -, -, hbp⟩ := upsample_backward_spec g hgHe hgWe
  obtain ⟨b2, hb2, -, -, -, -, hbp2⟩ :=
    upsample_backward_spec g2 (by omega) (by omega)
  refine ⟨⟨o, o2, ho, ho2, ?_⟩, ⟨u, u2, hu, hu2, ?_⟩, ⟨b, b2, hb, hb2, ?_⟩⟩
  · intro c i j hc hi hj
    by_cases hcn : c < x.C
    · rw [hon m c i j hcn, hon2 m c i j (by omega), hans]
    · rw [hod m c i j hmx (by omega) (by omega) hi hj,
        hod2 m c i j (by omega) (by omega) (by omega) (by omega) (by omega),
        hax, hxC]
  · intro c i j hc hi hj
    rw [hup m c i j hmy hc hi hj,
      hup2 m c i j (by omega) (by omega) (by omega) (by omega), hay]
  · intro c i j hc hi hj
    rw [hbp m c i j hmg hc hi hj,
      hbp2 m c i j (by omega) (by omega) (by omega) (by omega), hag]

/-- C9 witness: noninterference applied at the concrete samples, with the
second run using the same tensors. -/
theorem batch_noninterference_witness :
    img1.H % 2 = 0 ∧ img1.W % 2 = 0 ∧ nv1.len = img1.N ∧ 0 < img1.N ∧
    ten4.C % 4 = 0 ∧ 0 < ten4.N ∧ grad1.H % 2 = 0 ∧ grad1.W % 2 = 0 ∧
    0 < grad1.N ∧
    ((∃ o o2, concatenate_input_noise_map img1 nv1 = some o ∧
      concatenate_input_noise_map img1 nv1 = some o2 ∧
      ∀ c i j, c < 5 * img1.C → i < img1.H / 2 → j < img1.W / 2 →
        o.data 0 c i j = o2.data 0 c i j) ∧
    (∃ u u2, upsamplefeatures ten4 = some u ∧ upsamplefeatures ten4 = some u2 ∧
      ∀ c i j, c < ten4.C / 4 → i < ten4.H * 2 → j < ten4.W * 2 →
        u.data 0 c i j = u2.data 0 c i j) ∧
    (∃ b b2, upsample_backward grad1 = some b ∧ upsample_backward grad1 = some b2 ∧
      ∀ c i j, c < 4 * grad1.C → i < grad1.H / 2 → j < grad1.W / 2 →
        b.data 0 c i j = b2.data 0 c i j)) :=
  ⟨by decide, by decide, by decide, by decide, by decide, by decide, by decide,
    by decide, by decide,
    batch_noninterference img1 img1 nv1 nv1 ten4 ten4 grad1 grad1 0
      rfl rfl rfl rfl (by decide) (by decide) (by decide) (by decide) (by decide)
      (fun _ _ _ => rfl) rfl rfl rfl rfl rfl (by decide) (by decide)
      (fun _ _ _ => rfl) rfl rfl rfl rfl (by decide) (by decide) (by decide)
      (fun _ _ _ => rfl)⟩

/-- Splitting a sum over an even range into the even and odd indexed
terms. -/
lemma sum_range_double (H : ℕ) (f : ℕ → ℤ) :
    ∑ i ∈ Finset.range (H * 2), f i
      = ∑ a ∈ Finset.range H, (f (2 * a) + f (2 * a + 1)) := by
  induction H with
  | zero => simp
  | succ n ih =>
    rw [show (n + 1) * 2 = n * 2 + 1 + 1 by ring, Finset.sum_range_succ,
      Finset.sum_range_succ, ih, Finset.sum_range_succ,
      show 2 * n = n * 2 by ring]
    ring

/-- Splitting a sum over a range divisible by 4 into residue classes. -/
lemma sum_range_quad (K : ℕ) (f : ℕ → ℤ) :
    ∑ i ∈ Finset.range (4 * K), f i
      = ∑ c ∈ Finset.range K,
          (f (4 * c) + f (4 * c + 1) + f (4 * c + 2) + f (4 * c + 3)) := by
  induction K with
  | zero => simp
  | succ n ih =>
    rw [show 4 * (n + 1) = 4 * n + 1 + 1 + 1 + 1 by ring, Finset.sum_range_succ,
      Finset.sum_range_succ, Finset.sum_range_succ, Finset.sum_range_succ, ih,
      Finset.sum_range_succ,
      show 4 * n + 1 + 1 + 1 = 4 * n + 3 by ring,
      show 4 * n + 1 + 1 = 4 * n + 2 by ring]
    ring

/-- Common middle form of the two sides of the adjoint identity: the inner
product written as a sum over the coordinates of the Unfold input x paired
with the matching coordinates of the gradient g. -/
def adjointMid (x g : Tensor4) : ℤ :=
  ∑ n ∈ Finset.range x.N, ∑ c ∈ Finset.range (x.C / 4),
    ∑ a ∈ Finset.range x.H, ∑ p ∈ Finset.range x.W,
      (x.data n (4 * c) a p * g.data n c (2 * a) (2 * p)
        + x.data n (4 * c + 1) a p * g.data n c (2 * a) (2 * p + 1)
        + (x.data n (4 * c + 2) a p * g.data n c (2 * a + 1) (2 * p)
        + x.data n (4 * c + 3) a p * g.data n c (2 * a + 1) (2 * p + 1)))

/-- C3: adjoint correctness. For every Unfold input x with channels
divisible by 4 and every gradient g shaped like the Unfold output, the
inner product of Unfold(x) with g equals the inner product of x with
Backward(g); moreover Backward fills gradient channel k + 4 * c by sub
sampling upstream channel c at the row and column parities of offset k. -/
theorem unfold_adjoint (x g : Tensor4) (hx4 : x.C % 4 = 0)
    (hgN : g.N = x.N) (hgC : g.C = x.C / 4)
    (hgH : g.H = x.H * 2) (hgW : g.W = x.W * 2) :
    ∃ u b, upsamplefeatures x = some u ∧ upsample_backward g = some b ∧
      inner4 u g = inner4 x b ∧
      ∀ n k c i j, k < 4 → n < g.N → c < g.C → i < g.H / 2 → j < g.W / 2 →
        b.data n (k + 4 * c) i j = g.data n c (2 * i + k / 2) (2 * j + k % 2) := by
  obtain ⟨u, hu, huN, huC, huH, huW, hup⟩ := upsamplefeatures_spec x hx4
  obtain ⟨b, hb, hbN, hbC, hbH, hbW, hbp⟩ :=
    upsample_backward_spec g (by omega) (by omega)
  have hL : inner4 u g = adjointMid x g := by
    rw [inner4, adjointMid, huN, huC, huH, huW]
    refine Finset.sum_congr rfl fun n hn => Finset.sum_congr rfl fun c hc => ?_
    rw [sum_range_double]
    refine Finset.sum_congr rfl fun a ha => ?_
    rw [sum_range_double, sum_range_double, ← Finset.sum_add_distrib]
    refine Finset.sum_congr rfl fun p hp => ?_
    have hn2 := Finset.mem_range.mp hn
    have hc2 := Finset.mem_range.mp hc
    have ha2 := Finset.mem_range.mp ha
    have hp2 := Finset.mem_range.mp hp
    rw [hup n c (2 * a) (2 * p) hn2 hc2 (by omega) (by omega),
      hup n c (2 * a) (2 * p + 1) hn2 hc2 (by omega) (by omega),
      hup n c (2 * a + 1) (2 * p) hn2 hc2 (by omega) (by omega),
      hup n c (2 * a + 1) (2 * p + 1) hn2 hc2 (by omega) (by omega),
      show 2 * (2 * a % 2) + 2 * p % 2 + 4 * c = 4 * c by omega,
      show 2 * (2 * a % 2) + (2 * p + 1) % 2 + 4 * c = 4 * c + 1 by omega,
      show 2 * ((2 * a + 1) % 2) + 2 * p % 2 + 4 * c = 4 * c + 2 by omega,
      show 2 * ((2 * a + 1) % 2) + (2 * p + 1) % 2 + 4 * c = 4 * c + 3 by omega,
      show 2 * a / 2 = a by omega,
      show (2 * a + 1) / 2 = a by omega,
      show 2 * p / 2 = p by omega,
      show (2 * p + 1) / 2 = p by omega]
  have hR : inner4 x b = adjointMid x g := by
    rw [inner4, adjointMid]
    refine Finset.sum_congr rfl fun n hn => ?_
    conv_lhs => rw [show x.C = 4 * (x.C / 4) by omega]
    rw [sum_range_quad]
    refine Finset.sum_congr rfl fun c hc => ?_
    rw [← Finset.sum_add_distrib, ← Finset.sum_add_distrib, ← Finset.sum_add_distrib]
    refine Finset.sum_congr rfl fun a ha => ?_
    rw [← Finset.sum_add_distrib, ← Finset.sum_add_distrib, ← Finset.sum_add_distrib]
    refine Finset.sum_congr rfl fun p hp => ?_
    have hn2 := Finset.mem_range.mp hn
    have hc2 := Finset.mem_range.mp hc
    have ha2 := Finset.mem_range.mp ha
    have hp2 := Finset.mem_range.mp hp
    rw [hbp n (4 * c) a p (by omega) (by omega) (by omega) (by omega),
      hbp n (4 * c + 1) a p (by omega) (by omega) (by omega) (by omega),
      hbp n (4 * c + 2) a p (by omega) (by omega) (by omega) (by omega),
      hbp n (4 * c + 3) a p (by omega) (by omega) (by omega) (by omega),
      show (4 * c) / 4 = c by omega,
      show (4 * c + 1) / 4 = c by omega,
      show (4 * c + 2) / 4 = c by omega,
      show (4 * c + 3) / 4 = c by omega,
      show 2 * a + 4 * c % 4 / 2 = 2 * a by omega,
      show 2 * p + 4 * c % 4 % 2 = 2 * p by omega,
      show 2 * a + (4 * c + 1) % 4 / 2 = 2 * a by omega,
      show 2 * p + (4 * c + 1) % 4 % 2 = 2 * p + 1 by omega,
      show 2 * a + (4 * c + 2) % 4 / 2 = 2 * a + 1 by omega,
      show 2 * p + (4 * c + 2) % 4 % 2 = 2 * p by omega,
      show 2 * a + (4 * c + 3) % 4 / 2 = 2 * a + 1 by omega,
      show 2 * p + (4 * c + 3) % 4 % 2 = 2 * p + 1 by omega]
    ring
  refine ⟨u, b, hu, hb, hL.trans hR.symm, ?_⟩
  intro n k c i j hk hn hc hi hj
  rw [hbp n (k + 4 * c) i j hn (by omega) hi hj,
    show (k + 4 * c) / 4 = c by omega,
    show 2 * i + (k + 4 * c) % 4 / 2 = 2 * i + k / 2 by omega,
    show 2 * j + (k + 4 * c) % 4 % 2 = 2 * j + k % 2 by omega]

/-- C3 witness: the adjoint identity applied at the concrete (1, 4, 1, 1)
input and (1, 1, 2, 2) gradient. -/
theorem unfold_adjoint_witness :
    ten4.C % 4 = 0 ∧ grad1.N = ten4.N ∧ grad1.C = ten4.C / 4 ∧
    grad1.H = ten4.H * 2 ∧ grad1.W = ten4.W * 2 ∧
    (∃ u b, upsamplefeatures ten4 = some u ∧ upsample_backward grad1 = some b ∧
      inner4 u grad1 = inner4 ten4 b ∧
      ∀ n k c i j, k < 4 → n < grad1.N → c < grad1.C →
        i < grad1.H / 2 → j < grad1.W / 2 →
        b.data n (k + 4 * c) i j =
          grad1.data n c (2 * i + k / 2) (2 * j + k % 2)) :=
  ⟨by decide, by decide, by decide, by decide, by decide,
    unfold_adjoint ten4 grad1 (by decide) (by decide) (by decide)
      (by decide) (by decide)⟩

end Denoising
